import Mathlib

/-! Verification development for the WordPiece subword tokenization model
(src/tokenizers/src/models/wordpiece/mod.rs).  Strings are modelled as lists
of characters, the vocabulary HashMap as an association list (keys unique in
any map actually built), and the fallible tokenizer as an Except value. -/

set_option maxHeartbeats 1000000

namespace Tokenizers

/-- Reserved word-boundary sentinel character, U+2581 in the source. -/
def sentinel : Char := Char.ofNat 9601

/-- Newline character. -/
def nl : Char := Char.ofNat 10

/-- Carriage-return character. -/
def cr : Char := Char.ofNat 13

/-- Output token of the tokenizer: numeric id, text value and half-open
character-offset interval.  Mirrors crate::tokenizer::Token. -/
structure Token where
  id : Nat
  value : List Char
  offsets : Nat × Nat
deriving DecidableEq

/-- WordPiece error enum (mod.rs lines 22-25): the single variant. -/
inductive Error where
  | MissingUnkToken
deriving DecidableEq

instance {ε α : Type} [DecidableEq ε] [DecidableEq α] : DecidableEq (Except ε α) := fun
  | .ok a, .ok b =>
    match decEq a b with
    | isTrue h => isTrue (by rw [h])
    | isFalse h => isFalse (by intro hc; cases hc; exact h rfl)
  | .error a, .error b =>
    match decEq a b with
    | isTrue h => isTrue (by rw [h])
    | isFalse h => isFalse (by intro hc; cases hc; exact h rfl)
  | .ok _, .error _ => isFalse (by intro hc; cases hc)
  | .error _, .ok _ => isFalse (by intro hc; cases hc)

/-- Association-list lookup, modelling HashMap::get on the vocabulary. -/
def alookup (m : List (List Char × Nat)) (k : List Char) : Option Nat :=
  match m with
  | [] => none
  | e :: rest => if e.1 = k then some e.2 else alookup rest k

/-- Modelled from the spec: the character prefix trie of crate::utils::trie
(declared but not included under src/).  Each node owns a completeness flag
and a mapping from character to child node (specification section 4.1). -/
inductive Trie where
  | node (complete : Bool) (children : List (Char × Trie))

/-- Empty trie: incomplete root with no children. -/
def Trie.empty : Trie := .node false []

/-- Completeness flag of the root node. -/
def Trie.rootComplete : Trie → Bool
  | .node b _ => b

/-- Find the child of a node keyed by character c. -/
def childFind (cs : List (Char × Trie)) (c : Char) : Option Trie :=
  match cs with
  | [] => none
  | (d, t) :: rest => if d = c then some t else childFind rest c

/-- Replace (or append) the child keyed by character c. -/
def childSet (cs : List (Char × Trie)) (c : Char) (t : Trie) : List (Char × Trie) :=
  match cs with
  | [] => [(c, t)]
  | (d, u) :: rest => if d = c then (d, t) :: rest else (d, u) :: childSet rest c t

/-- Modelled from the spec: Trie::push inserts a character sequence, creating
or reusing the path and marking the terminal node complete (section 4.1). -/
def Trie.push : Trie → List Char → Trie
  | .node _ cs, [] => .node true cs
  | .node b cs, c :: rest =>
    .node b (childSet cs c ((match childFind cs c with
      | some t => t
      | none => Trie.empty).push rest))

/-- Length of the longest complete prefix of the input found in the trie:
the walk follows input symbols as far as possible and remembers the deepest
node along the walk marked complete (specification section 4.1). -/
def Trie.longestPrefixLen : Trie → List Char → Option Nat
  | .node b _, [] => if b then some 0 else none
  | .node b cs, c :: rest =>
    match childFind cs c with
    | some t =>
      match t.longestPrefixLen rest with
      | some n => some (n + 1)
      | none => if b then some 0 else none
    | none => if b then some 0 else none

/-- Modelled from the spec: one step per remembered match of the greedy scan.
At each cursor the longest complete prefix is located; if found the interval
is yielded and the cursor advances to its end, otherwise the scan stops
(section 4.1).  The fuel argument bounds the number of yielded intervals; it
is immaterial whenever every yielded match is nonempty, which holds whenever
the root is not complete. -/
def Trie.matchesFrom (t : Trie) (chars : List Char) : Nat → Nat → List (Nat × Nat)
  | 0, _ => []
  | fuel + 1, cursor =>
    match t.longestPrefixLen (chars.drop cursor) with
    | none => []
    | some n => (cursor, cursor + n) :: t.matchesFrom chars fuel (cursor + n)

/-- Modelled from the spec: Trie::matches, the full greedy scan from cursor 0
(section 4.1). -/
def Trie.matches (t : Trie) (chars : List Char) : List (Nat × Nat) :=
  t.matchesFrom chars (chars.length + 1) 0

/-- Walk a full path and report whether its terminal node is complete. -/
def Trie.containsPath : Trie → List Char → Bool
  | .node b _, [] => b
  | .node _ cs, c :: rest =>
    match childFind cs c with
    | some t => t.containsPath rest
    | none => false

/-- The WordPiece model (mod.rs lines 145-153).  The field contPrefix is the
source field continuing_subword_prefix. -/
structure WordPiece where
  vocab : List (List Char × Nat)
  vocab_r : List (Nat × List Char)
  trie : Trie
  unk_token : List Char
  contPrefix : List Char
  max_input_chars_per_word : Nat

/-- Default unknown token [UNK]. -/
def defaultUnk : List Char := ['[', 'U', 'N', 'K', ']']

/-- Default continuing subword marker ##. -/
def defaultCont : List Char := ['#', '#']

/-- Transformation applied to a vocabulary key before trie insertion
(mod.rs lines 120-127): keys beginning with the continuing-subword marker
are stripped of it; all other keys receive the sentinel in front. -/
def transformKey (p k : List Char) : List Char :=
  if p.isPrefixOf k then k.drop p.length else sentinel :: k

/-- Trie construction from the vocabulary keys (mod.rs lines 118-129). -/
def buildTrie (p : List Char) (keys : List (List Char)) : Trie :=
  keys.foldl (fun t k => t.push (transformKey p k)) Trie.empty

/-- WordPieceBuilder::build (mod.rs lines 106-139) for an in-memory
vocabulary (the optional vocabulary-file read is I/O and not modelled):
derives the reverse map and the trie and assembles the model. -/
def build (vocab : List (List Char × Nat)) (unk p : List Char) (maxChars : Nat) : WordPiece :=
  { vocab := vocab
    vocab_r := vocab.map (fun e => (e.2, e.1))
    trie := buildTrie p (vocab.map Prod.fst)
    unk_token := unk
    contPrefix := p
    max_input_chars_per_word := maxChars }

/-- Modelled from the spec: the alternative-model (BPE) collaborator contract
(specification section 6); the BPE implementation is not part of src/.  It
exposes a vocabulary and optional unknown-token and continuing-prefix. -/
structure BPE where
  vocab : List (List Char × Nat)
  unk_token : Option (List Char)
  contPrefix : Option (List Char)

/-- WordPiece::from_bpe (mod.rs lines 215-224): build from the BPE
vocabulary with default settings, then override the unknown token and the
continuing-subword marker when the BPE model provides them. -/
def from_bpe (bpe : BPE) : WordPiece :=
  let wp := build bpe.vocab defaultUnk defaultCont 100
  let wp := match bpe.unk_token with
    | some unk => { wp with unk_token := unk }
    | none => wp
  match bpe.contPrefix with
  | some p => { wp with contPrefix := p }
  | none => wp

/-- UTF-8 encoded width of one character (Rust char::len_utf8). -/
def charUtf8Len (c : Char) : Nat :=
  if c.toNat < 128 then 1 else if c.toNat < 2048 then 2 else if c.toNat < 65536 then 3 else 4

/-- UTF-8 byte length of a word: Rust str::len on the original word. -/
def byteLen (w : List Char) : Nat := (w.map charUtf8Len).sum

/-- Subslice chars[start..stop] of a character vector. -/
def sliceChars (chars : List Char) (start stop : Nat) : List Char :=
  (chars.drop start).take (stop - start)

/-- Fallback result shared by every abort branch of tokenize: one token
carrying the unknown-token string and its id, failing with MissingUnkToken
when the unknown token is not a vocabulary key. -/
def unkFallback (m : WordPiece) (offsets : Nat × Nat) : Except Error (List Token) :=
  match alookup m.vocab m.unk_token with
  | none => .error .MissingUnkToken
  | some id => .ok [⟨id, m.unk_token, offsets⟩]

/-- Body of the for-loop of tokenize (mod.rs lines 264-314): consume the
yielded intervals, aborting to the whole-word fallback on a gap before the
interval or a reconstructed piece missing from the vocabulary, and after the
loop when a trailing remainder was never consumed.  seqLen is the byte
length of the original word, used by the source for the fallback offsets. -/
def runScan (m : WordPiece) (chars : List Char) (seqLen : Nat) :
    List (Nat × Nat) → Nat → List Token → Except Error (List Token)
  | [], start_offset, sub_tokens =>
    if start_offset ≠ chars.length then unkFallback m (0, seqLen)
    else .ok sub_tokens
  | (start, stop) :: rest, start_offset, sub_tokens =>
    if start_offset < start then unkFallback m (0, seqLen)
    else
      let start := if start = 0 then start + 1 else start
      let substr := sliceChars chars start stop
      let substr := if start > 1 then m.contPrefix ++ substr else substr
      match alookup m.vocab substr with
      | some id =>
        runScan m chars seqLen rest stop (sub_tokens ++ [⟨id, substr, (start - 1, stop - 1)⟩])
      | none => unkFallback m (0, seqLen)

/-- WordPiece::tokenize (mod.rs lines 238-315): sentinel prepension, length
guard, vocabulary fast path, then the trie-driven general path. -/
def tokenize (m : WordPiece) (sequence : List Char) : Except Error (List Token) :=
  let chars := sentinel :: sequence
  if chars.length > m.max_input_chars_per_word + 1 then
    unkFallback m (0, chars.length - 1)
  else
    match alookup m.vocab sequence with
    | some id => .ok [⟨id, sequence, (0, chars.length - 1)⟩]
    | none => runScan m chars (byteLen sequence) (m.trie.matches chars) 0 []

/-- Abort detector mirroring runScan branch for branch without building
tokens: true exactly when runScan takes one of the whole-word fallback
branches. -/
def scanFallback (m : WordPiece) (chars : List Char) :
    List (Nat × Nat) → Nat → Bool
  | [], start_offset => start_offset ≠ chars.length
  | (start, stop) :: rest, start_offset =>
    if start_offset < start then true
    else
      let start := if start = 0 then start + 1 else start
      let substr := sliceChars chars start stop
      let substr := if start > 1 then m.contPrefix ++ substr else substr
      match alookup m.vocab substr with
      | some _ => scanFallback m chars rest stop
      | none => true

/-- True exactly when tokenize reaches a point where it must emit (or look
up the id of) the unknown token: the length guard fires, or the fast path
misses and the general path aborts. -/
def hitsFallback (m : WordPiece) (sequence : List Char) : Bool :=
  let chars := sentinel :: sequence
  if chars.length > m.max_input_chars_per_word + 1 then true
  else
    match alookup m.vocab sequence with
    | some _ => false
    | none => scanFallback m chars (m.trie.matches chars) 0

/-- Strip one continuing-subword marker from a piece text when present (the
reverse of the reinsertion performed on non-initial pieces). -/
def stripPiece (p v : List Char) : List Char :=
  if p.isPrefixOf v then v.drop p.length else v

/-- Claim-side reconstruction: the first piece verbatim, every non-initial
piece with the continuing-subword marker stripped, concatenated in order. -/
def stripConcat (p : List Char) : List Token → List Char
  | [] => []
  | t :: rest => t.value ++ (rest.map (fun s => stripPiece p s.value)).flatten

/-- Offsets of the token list chain from a to b: each token starts where the
previous one stopped. -/
def offsetsChained : List Token → Nat → Nat → Prop
  | [], a, b => a = b
  | t :: rest, a, b => t.offsets.1 = a ∧ offsetsChained rest t.offsets.2 b

/-- The token list is the single whole-word unknown-token fallback (the
source emits byte-length offsets on the scan path and character-length
offsets on the length-guard path). -/
def IsUnkFallback (m : WordPiece) (w : List Char) (toks : List Token) : Prop :=
  ∃ id, alookup m.vocab m.unk_token = some id ∧
    (toks = [⟨id, m.unk_token, (0, byteLen w)⟩] ∨ toks = [⟨id, m.unk_token, (0, w.length)⟩])

/-- The token list is a complete valid segmentation: nonempty, every value a
vocabulary key carrying the matching id, offsets contiguous and covering
[0, len(word)). -/
def IsValidSegmentation (m : WordPiece) (w : List Char) (toks : List Token) : Prop :=
  toks ≠ [] ∧ (∀ t ∈ toks, alookup m.vocab t.value = some t.id) ∧
    offsetsChained toks 0 w.length

/-- Intervals chained from cursor c: each interval starts exactly where the
cursor stands and stops no later than the end of the character vector. -/
def ChainFrom (len : Nat) : Nat → List (Nat × Nat) → Prop
  | _, [] => True
  | c, iv :: rest => iv.1 = c ∧ c ≤ iv.2 ∧ iv.2 ≤ len ∧ ChainFrom len iv.2 rest

/-- Shape of the token list built by the scan loop from cursor c: each token
holds the vocabulary lookup of its (possibly marker-reinserted) slice with
sentinel-corrected offsets, and the final cursor reaches the end of the
character vector. -/
def TokSpec (m : WordPiece) (chars : List Char) : List Token → Nat → Prop
  | [], c => c = chars.length
  | tok :: rest, c => ∃ stop, c ≤ stop ∧ stop ≤ chars.length ∧
      tok.value = (if (if c = 0 then c + 1 else c) > 1 then
          m.contPrefix ++ sliceChars chars (if c = 0 then c + 1 else c) stop
        else sliceChars chars (if c = 0 then c + 1 else c) stop) ∧
      alookup m.vocab tok.value = some tok.id ∧
      tok.offsets = ((if c = 0 then c + 1 else c) - 1, stop - 1) ∧
      TokSpec m chars rest stop

/-- Vocabulary of the repository test test_tokenize_piece. -/
def mBanana : WordPiece := build
  [(['#', '#', 'n', 'a'], 0), (['b', 'a'], 1), (defaultUnk, 2)]
  defaultUnk defaultCont 100

/-- The test word banana. -/
def wBanana : List Char := ['b', 'a', 'n', 'a', 'n', 'a']

/-- Expected segmentation of banana from the repository test. -/
def toksBanana : List Token :=
  [⟨1, ['b', 'a'], (0, 2)⟩, ⟨0, ['#', '#', 'n', 'a'], (2, 4)⟩,
   ⟨0, ['#', '#', 'n', 'a'], (4, 6)⟩]

/-- Model exhibiting the fallback-offset unit mismatch: only the unknown
token in the vocabulary. -/
def mC1x : WordPiece := build [(defaultUnk, 0)] defaultUnk defaultCont 100

/-- One-character word U+00E9 whose UTF-8 encoding takes two bytes. -/
def wC1x : List Char := [Char.ofNat 233]

/-- Model refuting the reconstruction claim verbatim: the empty string is a
vocabulary key and the continuing-subword marker is the single letter a. -/
def mC2x : WordPiece := build
  [([], 0), (['a', 'a', 'b'], 1), (['a', 'b'], 2), (['a', 'c'], 3)]
  defaultUnk ['a'] 100

/-- Word abc, successfully segmented by mC2x into three pieces. -/
def wC2x : List Char := ['a', 'b', 'c']

/-- Segmentation of abc under mC2x: an empty piece, then two pieces of which
the second carries no reinserted marker. -/
def toksC2x : List Token :=
  [⟨0, [], (0, 0)⟩, ⟨2, ['a', 'b'], (0, 2)⟩, ⟨3, ['a', 'c'], (2, 3)⟩]

/-- Two distinct vocabulary keys whose trie insertions collide: stripping ##
from the first yields the sentinel-prefixed form of the second. -/
def keysC7x : List (List Char) := [['#', '#', sentinel, 'a'], ['a']]

/-- The shared trie path of the colliding keys. -/
def pathC7x : List Char := [sentinel, 'a']

/-- Model with a guard limit of two characters, for the length-guard witness. -/
def mC3w : WordPiece := build [(defaultUnk, 7)] defaultUnk defaultCont 2

/-- Model without an unknown token, for the error witness. -/
def mC5x : WordPiece := build [(['a'], 0)] defaultUnk defaultCont 100

/-- Model whose vocabulary holds exactly the empty word. -/
def mC10w : WordPiece := build [([], 0)] defaultUnk defaultCont 100

/-- Rust char::is_whitespace: the Unicode White_Space code points. -/
def rustIsWhitespace (c : Char) : Bool :=
  [9, 10, 11, 12, 13, 32, 133, 160, 5760, 8192, 8193, 8194, 8195, 8196, 8197,
    8198, 8199, 8200, 8201, 8202, 8232, 8233, 8239, 8287, 12288].contains c.toNat

/-- Rust str::trim_end: drop trailing whitespace characters. -/
def trimEnd (l : List Char) : List Char :=
  (l.reverse.dropWhile rustIsWhitespace).reverse

/-- Vocabulary entries sorted ascending by id (mod.rs lines 336-337; the
source sort is unstable, deterministic once ids are distinct). -/
def sortByIdx (v : List (List Char × Nat)) : List (List Char × Nat) :=
  List.insertionSort (fun a b => a.2 ≤ b.2) v

/-- One line per entry, each newline-terminated. -/
def linesJoin : List (List Char) → List Char
  | [] => []
  | l :: rest => l ++ nl :: linesJoin rest

/-- Byte content written by save (mod.rs lines 325-346): tokens sorted
ascending by id, one per line, newline-terminated.  Path handling and file
creation are I/O and not modelled. -/
def saveContent (v : List (List Char × Nat)) : List Char :=
  linesJoin ((sortByIdx v).map Prod.fst)

/-- Strip one carriage return preceding a newline, as BufRead::lines does. -/
def dropTrailingCR (l : List Char) : List Char :=
  match l.getLast? with
  | some c => if c = cr then l.dropLast else l
  | none => l

/-- Split on newline characters, BufRead::lines style: the newline is
consumed, a carriage return directly before it is dropped, and a final
fragment without a newline still counts as a line. -/
def splitLinesAux : List Char → List Char → List (List Char)
  | [], acc => if acc.isEmpty then [] else [acc.reverse]
  | c :: rest, acc =>
    if c = nl then dropTrailingCR acc.reverse :: splitLinesAux rest []
    else splitLinesAux rest (c :: acc)

/-- All lines of a character stream. -/
def splitLines (s : List Char) : List (List Char) :=
  splitLinesAux s []

/-- HashMap::insert semantics on the association list: replace the value of
an existing key in place, else append. -/
def insertVocab (m : List (List Char × Nat)) (k : List Char) (v : Nat) :
    List (List Char × Nat) :=
  match alookup m k with
  | some _ => m.map (fun e => if e.1 = k then (k, v) else e)
  | none => m ++ [(k, v)]

/-- Loop of WordPiece::read_file (mod.rs lines 200-204): each line is
trimmed of trailing whitespace and inserted with its zero-based line index
as id. -/
def read_fileAux : List (List Char) → Nat → List (List Char × Nat) → List (List Char × Nat)
  | [], _, m => m
  | line :: rest, i, m => read_fileAux rest (i + 1) (insertVocab m (trimEnd line) i)

/-- WordPiece::read_file (mod.rs lines 196-207) on in-memory content (file
opening is I/O and not modelled). -/
def read_file (content : List Char) : List (List Char × Nat) :=
  read_fileAux (splitLines content) 0 []

/-- Entries paired with consecutive indices starting at i. -/
def indexed : List (List Char) → Nat → List (List Char × Nat)
  | [], _ => []
  | l :: rest, i => (l, i) :: indexed rest (i + 1)

/-- Round-trip counterexample vocabulary: one token with a trailing space. -/
def VC8x : List (List Char × Nat) := [(['a', Char.ofNat 32], 0)]

/-- Clean two-token vocabulary used by the round-trip witness. -/
def VC8w : List (List Char × Nat) := [(['b'], 1), (['a'], 0)]

example : tokenize mBanana wBanana = .ok toksBanana := by decide

example : tokenize mBanana ['n', 'a', 'n', 'a', 'n', 'a'] =
    .ok [⟨2, defaultUnk, (0, 6)⟩] := by decide

theorem unkFallback_ok_shape (m : WordPiece) (off : Nat × Nat) (out : List Token)
    (h : unkFallback m off = .ok out) :
    ∃ id, alookup m.vocab m.unk_token = some id ∧ out = [⟨id, m.unk_token, off⟩] := by
  unfold unkFallback at h
  cases ha : alookup m.vocab m.unk_token <;> rw [ha] at h <;> simp_all

theorem unkFallback_error_shape (m : WordPiece) (off : Nat × Nat) (e : Error)
    (h : unkFallback m off = .error e) :
    e = Error.MissingUnkToken ∧ alookup m.vocab m.unk_token = none := by
  unfold unkFallback at h
  cases ha : alookup m.vocab m.unk_token <;> rw [ha] at h <;> simp_all

theorem unkFallback_of_none (m : WordPiece) (off : Nat × Nat)
    (h : alookup m.vocab m.unk_token = none) :
    unkFallback m off = .error Error.MissingUnkToken := by
  unfold unkFallback; rw [h]

theorem unkFallback_of_some (m : WordPiece) (off : Nat × Nat) (id : Nat)
    (h : alookup m.vocab m.unk_token = some id) :
    unkFallback m off = .ok [⟨id, m.unk_token, off⟩] := by
  unfold unkFallback; rw [h]

/-- C3: a word whose character count exceeds max_input_chars_per_word is not
processed further: tokenize returns the single fallback token with value the
unknown token, its vocabulary id, and offsets (0, word character length),
failing with MissingUnkToken when the unknown token is absent. -/
theorem C3_length_guard (m : WordPiece) (w : List Char)
    (h : m.max_input_chars_per_word < w.length) :
    tokenize m w = match alookup m.vocab m.unk_token with
      | some id => .ok [⟨id, m.unk_token, (0, w.length)⟩]
      | none => .error Error.MissingUnkToken := by
  unfold tokenize
  have hc : (sentinel :: w).length > m.max_input_chars_per_word + 1 := by
    simp only [List.length_cons]; omega
  rw [if_pos hc]
  cases ha : alookup m.vocab m.unk_token with
  | none => simp [unkFallback_of_none m _ ha]
  | some id => simp [unkFallback_of_some m _ id ha]

theorem C3_witness :
    mC3w.max_input_chars_per_word < wC2x.length ∧
      tokenize mC3w wC2x = .ok [⟨7, defaultUnk, (0, 3)⟩] :=
  ⟨by decide, (C3_length_guard mC3w wC2x (by decide)).trans (by decide)⟩

/-- C4: a word passing the length guard whose unmodified text is a
vocabulary entry produces exactly one token with that id, the word text as
value and offsets (0, word character length); the trie (quantified freely
inside m) is never consulted. -/
theorem C4_fast_path (m : WordPiece) (w : List Char) (id : Nat)
    (hlen : w.length ≤ m.max_input_chars_per_word)
    (hv : alookup m.vocab w = some id) :
    tokenize m w = .ok [⟨id, w, (0, w.length)⟩] := by
  unfold tokenize
  have hc : ¬ ((sentinel :: w).length > m.max_input_chars_per_word + 1) := by
    simp only [List.length_cons]; omega
  rw [if_neg hc, hv]
  simp

theorem C4_witness :
    (wBanana.take 2).length ≤ mBanana.max_input_chars_per_word ∧
      alookup mBanana.vocab (wBanana.take 2) = some 1 ∧
      tokenize mBanana (wBanana.take 2) = .ok [⟨1, ['b', 'a'], (0, 2)⟩] :=
  ⟨by decide, by decide, C4_fast_path mBanana (wBanana.take 2) 1 (by decide) (by decide)⟩

/-- C9: deriving a WordPiece model from a BPE model copies the BPE
vocabulary verbatim, replaces the default unknown token and
continuing-subword marker by the BPE values exactly when the BPE model
provides them, keeps the default guard limit, and (being a total function)
never fails. -/
theorem C9_from_bpe (bpe : BPE) :
    (from_bpe bpe).vocab = bpe.vocab ∧
    (from_bpe bpe).unk_token = (match bpe.unk_token with
      | some u => u
      | none => defaultUnk) ∧
    (from_bpe bpe).contPrefix = (match bpe.contPrefix with
      | some p => p
      | none => defaultCont) ∧
    (from_bpe bpe).max_input_chars_per_word = 100 := by
  obtain ⟨v, u, p⟩ := bpe
  cases u <;> cases p <;> simp [from_bpe, build]

theorem runScan_ok_shape (m : WordPiece) (chars : List Char) (bl : Nat) :
    ∀ ivs c acc out, runScan m chars bl ivs c acc = .ok out →
      out ≠ [] ∨ (out = acc ∧ c = chars.length) := by
  intro ivs
  induction ivs with
  | nil =>
    intro c acc out h
    unfold runScan at h
    by_cases hc : c ≠ chars.length
    · rw [if_pos hc] at h
      obtain ⟨id, _, hout⟩ := unkFallback_ok_shape m _ out h
      subst hout; left; simp
    · rw [if_neg hc] at h
      injection h with h
      push_neg at hc
      subst h
      exact .inr ⟨rfl, hc⟩
  | cons iv rest ih =>
    intro c acc out h
    obtain ⟨s, t⟩ := iv
    unfold runScan at h
    by_cases hlt : c < s
    · rw [if_pos hlt] at h
      obtain ⟨id, _, hout⟩ := unkFallback_ok_shape m _ out h
      subst hout; left; simp
    · rw [if_neg hlt] at h
      simp only at h
      cases ha : alookup m.vocab
          (if (if s = 0 then s + 1 else s) > 1 then
            m.contPrefix ++ sliceChars chars (if s = 0 then s + 1 else s) t
          else sliceChars chars (if s = 0 then s + 1 else s) t) with
      | none =>
        rw [ha] at h
        obtain ⟨id, _, hout⟩ := unkFallback_ok_shape m _ out h
        subst hout; left; simp
      | some id =>
        rw [ha] at h
        rcases ih t _ out h with hne | ⟨hout, _⟩
        · exact .inl hne
        · left; rw [hout]; simp

/-- C10: every successful tokenize call returns a nonempty token sequence,
for every model and every word including the empty word. -/
theorem C10_nonempty (m : WordPiece) (w : List Char) (toks : List Token)
    (h : tokenize m w = .ok toks) : toks ≠ [] := by
  unfold tokenize at h
  by_cases hg : (sentinel :: w).length > m.max_input_chars_per_word + 1
  · rw [if_pos hg] at h
    obtain ⟨id, _, hout⟩ := unkFallback_ok_shape m _ toks h
    subst hout; simp
  · rw [if_neg hg] at h
    cases ha : alookup m.vocab w with
    | some id => rw [ha] at h; cases h; simp
    | none =>
      rw [ha] at h
      rcases runScan_ok_shape m (sentinel :: w) (byteLen w) _ 0 [] toks h with
        hne | ⟨_, hlen⟩
      · exact hne
      · simp at hlen

theorem C10_witness :
    tokenize mC10w [] = .ok [⟨0, [], (0, 0)⟩] ∧ ([⟨0, [], (0, 0)⟩] : List Token) ≠ [] :=
  ⟨by decide, C10_nonempty mC10w [] [⟨0, [], (0, 0)⟩] (by decide)⟩

/-- C1 (divergence witness): on the general trie path the whole-word
fallback token is emitted with offsets (0, byte length of the word), not
character coordinates: for the one-character word U+00E9 the offsets are
(0, 2) although the word has exactly one character. -/
theorem C1_fallback_offsets_bytes :
    tokenize mC1x wC1x = .ok [⟨0, defaultUnk, (0, 2)⟩] ∧
      wC1x.length = 1 ∧ byteLen wC1x = 2 := by
  refine ⟨by decide, by decide, by decide⟩

theorem longestPrefixLen_le : ∀ (l : List Char) (t : Trie) (n : Nat),
    t.longestPrefixLen l = some n → n ≤ l.length := by
  intro l
  induction l with
  | nil =>
    intro t n h
    cases t with
    | node b cs =>
      unfold Trie.longestPrefixLen at h
      split at h
      · cases h; exact Nat.le_refl 0
      · cases h
  | cons c rest ih =>
    intro t n h
    cases t with
    | node b cs =>
      unfold Trie.longestPrefixLen at h
      split at h
      · rename_i t2 hf
        split at h
        · rename_i k hl
          cases h
          have := ih t2 k hl
          simp only [List.length_cons]
          omega
        · split at h
          · cases h; simp
          · cases h
      · split at h
        · cases h; simp
        · cases h

theorem matchesFrom_chain (t : Trie) (chars : List Char) :
    ∀ fuel c, c ≤ chars.length →
      ChainFrom chars.length c (t.matchesFrom chars fuel c) := by
  intro fuel
  induction fuel with
  | zero => intro c _; exact trivial
  | succ fuel ih =>
    intro c hc
    unfold Trie.matchesFrom
    cases hl : t.longestPrefixLen (chars.drop c) with
    | none => exact trivial
    | some n =>
      have hn : n ≤ chars.length - c := by
        have := longestPrefixLen_le _ _ _ hl
        simpa [List.length_drop] using this
      exact ⟨rfl, by omega, by omega, ih (c + n) (by omega)⟩

theorem runScan_of_fallback (m : WordPiece) (chars : List Char) (bl : Nat) :
    ∀ ivs c acc, scanFallback m chars ivs c = true →
      runScan m chars bl ivs c acc = unkFallback m (0, bl) := by
  intro ivs
  induction ivs with
  | nil =>
    intro c acc h
    unfold scanFallback at h
    unfold runScan
    rw [if_pos (of_decide_eq_true h)]
  | cons iv rest ih =>
    intro c acc h
    obtain ⟨s, t⟩ := iv
    unfold scanFallback at h
    unfold runScan
    by_cases hlt : c < s
    · rw [if_pos hlt]
    · rw [if_neg hlt] at h ⊢
      simp only at h ⊢
      cases ha : alookup m.vocab
          (if (if s = 0 then s + 1 else s) > 1 then
            m.contPrefix ++ sliceChars chars (if s = 0 then s + 1 else s) t
          else sliceChars chars (if s = 0 then s + 1 else s) t) with
      | none => rfl
      | some id => rw [ha] at h; exact ih t _ h

theorem runScan_of_success (m : WordPiece) (chars : List Char) (bl : Nat) :
    ∀ ivs c acc, ChainFrom chars.length c ivs →
      scanFallback m chars ivs c = false →
      ∃ new, runScan m chars bl ivs c acc = .ok (acc ++ new) ∧ TokSpec m chars new c := by
  intro ivs
  induction ivs with
  | nil =>
    intro c acc _ h
    unfold scanFallback at h
    have hc : c = chars.length := by
      by_contra hne
      rw [decide_eq_true hne] at h
      cases h
    refine ⟨[], ?_, hc⟩
    unfold runScan
    rw [if_neg (by simp [hc])]
    simp
  | cons iv rest ih =>
    intro c acc hch h
    obtain ⟨s, t⟩ := iv
    obtain ⟨hs, hct, htl, hch2⟩ := hch
    subst hs
    unfold scanFallback at h
    unfold runScan
    rw [if_neg (lt_irrefl s)] at h ⊢
    simp only at h ⊢
    cases ha : alookup m.vocab
        (if (if s = 0 then s + 1 else s) > 1 then
          m.contPrefix ++ sliceChars chars (if s = 0 then s + 1 else s) t
        else sliceChars chars (if s = 0 then s + 1 else s) t) with
    | none => rw [ha] at h; cases h
    | some id =>
      rw [ha] at h
      obtain ⟨new, hrun, hspec⟩ := ih t
        (acc ++ [⟨id,
          if (if s = 0 then s + 1 else s) > 1 then
            m.contPrefix ++ sliceChars chars (if s = 0 then s + 1 else s) t
          else sliceChars chars (if s = 0 then s + 1 else s) t,
          ((if s = 0 then s + 1 else s) - 1, t - 1)⟩]) hch2 h
      refine ⟨⟨id,
          if (if s = 0 then s + 1 else s) > 1 then
            m.contPrefix ++ sliceChars chars (if s = 0 then s + 1 else s) t
          else sliceChars chars (if s = 0 then s + 1 else s) t,
          ((if s = 0 then s + 1 else s) - 1, t - 1)⟩ :: new, ?_, ?_⟩
      · exact hrun.trans (by simp)
      · exact ⟨t, hct, htl, rfl, ha, rfl, hspec⟩

theorem sliceChars_append (chars : List Char) (a b c : Nat) (h1 : a ≤ b) (h2 : b ≤ c) :
    sliceChars chars a b ++ sliceChars chars b c = sliceChars chars a c := by
  unfold sliceChars
  have hb : chars.drop b = (chars.drop a).drop (b - a) := by
    rw [List.drop_drop]
    congr 1
    omega
  rw [hb]
  have hc : c - a = (b - a) + (c - b) := by omega
  rw [hc, List.take_add]

theorem tokspec_lookup (m : WordPiece) (chars : List Char) :
    ∀ toks c, TokSpec m chars toks c →
      ∀ t ∈ toks, alookup m.vocab t.value = some t.id := by
  intro toks
  induction toks with
  | nil => intro c _ t ht; cases ht
  | cons tok rest ih =>
    intro c hspec t ht
    obtain ⟨stop, _, _, _, hlk, _, hrest⟩ := hspec
    rcases List.mem_cons.mp ht with rfl | hmem
    · exact hlk
    · exact ih stop hrest t hmem

theorem tokspec_chain (m : WordPiece) (chars : List Char) :
    ∀ toks c, TokSpec m chars toks c →
      offsetsChained toks ((if c = 0 then c + 1 else c) - 1) (chars.length - 1) := by
  intro toks
  induction toks with
  | nil =>
    intro c hc
    show (if c = 0 then c + 1 else c) - 1 = chars.length - 1
    rw [hc]
    split <;> omega
  | cons tok rest ih =>
    intro c hspec
    obtain ⟨stop, hcs, hsl, hv, hlk, hoff, hrest⟩ := hspec
    refine ⟨?_, ?_⟩
    · rw [hoff]
    · rw [hoff]
      have h2 := ih stop hrest
      have he : stop - 1 = (if stop = 0 then stop + 1 else stop) - 1 := by
        split <;> omega
      show offsetsChained rest (stop - 1) (chars.length - 1)
      rw [he]
      exact h2

theorem stripPiece_append (p x : List Char) : stripPiece p (p ++ x) = x := by
  unfold stripPiece
  rw [if_pos (List.isPrefixOf_iff_prefix.mpr (List.prefix_append _ _))]
  exact List.drop_left _ _

theorem tokspec_concat_tail (m : WordPiece) (chars : List Char) :
    ∀ toks c, 2 ≤ c → TokSpec m chars toks c →
      (toks.map (fun s => stripPiece m.contPrefix s.value)).flatten =
        sliceChars chars c chars.length := by
  intro toks
  induction toks with
  | nil =>
    intro c _ hc
    rw [hc]
    show ([] : List Char) = sliceChars chars chars.length chars.length
    unfold sliceChars
    rw [Nat.sub_self, List.take_zero]
  | cons tok rest ih =>
    intro c hc2 hspec
    obtain ⟨stop, hcs, hsl, hv, hlk, hoff, hrest⟩ := hspec
    have hcne : ¬ (c = 0) := by omega
    rw [if_neg hcne] at hv
    have hgt : c > 1 := by omega
    rw [if_pos hgt] at hv
    simp only [List.map_cons, List.flatten_cons]
    rw [hv, stripPiece_append]
    rw [ih stop (by omega) hrest]
    exact sliceChars_append chars c stop chars.length hcs hsl

theorem error_kind_unique (m : WordPiece) (w : List Char) :
    ∀ e, tokenize m w = .error e → e = Error.MissingUnkToken := by
  intro e _
  cases e
  rfl

theorem scanFallback_eq_false (m : WordPiece) (chars : List Char)
    (ivs : List (Nat × Nat)) (c : Nat)
    (h : ¬ scanFallback m chars ivs c = true) :
    scanFallback m chars ivs c = false := by
  revert h
  cases scanFallback m chars ivs c <;> simp

/-- C5: tokenize fails exactly with MissingUnkToken, and it does so if and
only if the run reaches a point where the unknown token must be emitted (or
its id looked up) while the unknown token is absent from the vocabulary. -/
theorem C5_missing_unk_iff (m : WordPiece) (w : List Char) :
    (∀ e, tokenize m w = .error e → e = Error.MissingUnkToken) ∧
    (tokenize m w = .error Error.MissingUnkToken ↔
      alookup m.vocab m.unk_token = none ∧ hitsFallback m w = true) := by
  refine ⟨error_kind_unique m w, ?_⟩
  unfold tokenize hitsFallback
  by_cases hg : (sentinel :: w).length > m.max_input_chars_per_word + 1
  · simp only [if_pos hg]
    constructor
    · intro h
      exact ⟨(unkFallback_error_shape m _ _ h).2, by trivial⟩
    · intro h
      exact unkFallback_of_none m _ h.1
  · simp only [if_neg hg]
    cases ha : alookup m.vocab w with
    | some id =>
      constructor
      · intro h; cases h
      · intro h
        simp at h
    | none =>
      by_cases hsf : scanFallback m (sentinel :: w) (m.trie.matches (sentinel :: w)) 0 = true
      · rw [runScan_of_fallback m _ _ _ _ _ hsf]
        constructor
        · intro h
          exact ⟨(unkFallback_error_shape m _ _ h).2, hsf⟩
        · intro h
          exact unkFallback_of_none m _ h.1
      · have hsf2 := scanFallback_eq_false m _ _ _ hsf
        obtain ⟨new, hrun, _⟩ := runScan_of_success m (sentinel :: w) (byteLen w)
          (m.trie.matches (sentinel :: w)) 0 []
          (matchesFrom_chain m.trie (sentinel :: w) _ 0 (Nat.zero_le _)) hsf2
        rw [hrun]
        constructor
        · intro h; cases h
        · intro h
          rw [hsf2] at h
          simp at h

theorem C5_witness :
    tokenize mC5x ['b'] = .error Error.MissingUnkToken :=
  (C5_missing_unk_iff mC5x ['b']).2.mpr ⟨by decide, by decide⟩

/-- C6: every tokenize outcome is exactly one of a propagated MissingUnkToken
error, a single whole-word unknown-token fallback, or a complete valid
segmentation whose members all carry a vocabulary key with matching id —
never a mixture of valid pieces and fallback tokens. -/
theorem C6_all_or_nothing (m : WordPiece) (w : List Char) :
    (∀ e, tokenize m w = .error e → e = Error.MissingUnkToken) ∧
    (∀ toks, tokenize m w = .ok toks →
      IsUnkFallback m w toks ∨ IsValidSegmentation m w toks) := by
  refine ⟨error_kind_unique m w, ?_⟩
  intro toks htok
  unfold tokenize at htok
  by_cases hg : (sentinel :: w).length > m.max_input_chars_per_word + 1
  · rw [if_pos hg] at htok
    obtain ⟨id, hid, hout⟩ := unkFallback_ok_shape m _ _ htok
    left
    refine ⟨id, hid, .inr ?_⟩
    rw [hout]
    simp
  · rw [if_neg hg] at htok
    cases ha : alookup m.vocab w with
    | some id =>
      rw [ha] at htok
      injection htok with htok
      right
      subst htok
      refine ⟨by simp, ?_, rfl, ?_⟩
      · intro t ht
        simp only [List.mem_singleton] at ht
        subst ht
        exact ha
      · show (sentinel :: w).length - 1 = w.length
        simp
    | none =>
      rw [ha] at htok
      by_cases hsf : scanFallback m (sentinel :: w) (m.trie.matches (sentinel :: w)) 0 = true
      · rw [runScan_of_fallback m _ _ _ _ _ hsf] at htok
        obtain ⟨id, hid, hout⟩ := unkFallback_ok_shape m _ _ htok
        exact .inl ⟨id, hid, .inl (by rw [hout])⟩
      · have hsf2 := scanFallback_eq_false m _ _ _ hsf
        obtain ⟨new, hrun, hspec⟩ := runScan_of_success m (sentinel :: w) (byteLen w)
          (m.trie.matches (sentinel :: w)) 0 []
          (matchesFrom_chain m.trie (sentinel :: w) _ 0 (Nat.zero_le _)) hsf2
        rw [hrun] at htok
        injection htok with htok
        rw [List.nil_append] at htok
        subst htok
        right
        refine ⟨?_, tokspec_lookup m (sentinel :: w) new 0 hspec, ?_⟩
        · intro hnil
          subst hnil
          have h0 : (0 : Nat) = (sentinel :: w).length := hspec
          simp at h0
        · exact tokspec_chain m (sentinel :: w) new 0 hspec

theorem C6_witness :
    IsUnkFallback mBanana ['n', 'a'] [⟨2, defaultUnk, (0, 2)⟩] ∨
      IsValidSegmentation mBanana ['n', 'a'] [⟨2, defaultUnk, (0, 2)⟩] :=
  (C6_all_or_nothing mBanana ['n', 'a']).2 [⟨2, defaultUnk, (0, 2)⟩] (by decide)

/-- C2 (counterexample): with the empty string as a vocabulary key and the
continuing marker a, the word abc segments successfully into three pieces
whose claim-side reconstruction is bc, not abc: the middle piece begins at
normalized position 1 and never receives the reinserted marker. -/
theorem C2_counterexample :
    hitsFallback mC2x wC2x = false ∧ tokenize mC2x wC2x = .ok toksC2x ∧
      stripConcat mC2x.contPrefix toksC2x ≠ wC2x :=
  ⟨by decide, by decide, by decide⟩

/-- C2 (amended): provided the empty string is not a vocabulary key, every
word that hits neither the fallback nor the error path reconstructs exactly
under claim-side stripping, and the piece offsets are contiguous and cover
[0, len(word)). -/
theorem C2_reconstruction (m : WordPiece) (w : List Char) (toks : List Token)
    (hemp : alookup m.vocab [] = none)
    (hnofb : hitsFallback m w = false)
    (htok : tokenize m w = .ok toks) :
    stripConcat m.contPrefix toks = w ∧ offsetsChained toks 0 w.length := by
  unfold hitsFallback at hnofb
  unfold tokenize at htok
  by_cases hg : (sentinel :: w).length > m.max_input_chars_per_word + 1
  · rw [if_pos hg] at hnofb; cases hnofb
  · rw [if_neg hg] at hnofb htok
    cases ha : alookup m.vocab w with
    | some id =>
      rw [ha] at htok
      injection htok with htok
      subst htok
      constructor
      · show w ++ ([] : List (List Char)).flatten = w
        simp
      · refine ⟨rfl, ?_⟩
        show (sentinel :: w).length - 1 = w.length
        simp
    | none =>
      rw [ha] at hnofb htok
      obtain ⟨new, hrun, hspec⟩ := runScan_of_success m (sentinel :: w) (byteLen w)
        (m.trie.matches (sentinel :: w)) 0 []
        (matchesFrom_chain m.trie (sentinel :: w) _ 0 (Nat.zero_le _)) hnofb
      rw [hrun] at htok
      injection htok with htok
      rw [List.nil_append] at htok
      subst htok
      have hch : offsetsChained new 0 w.length := tokspec_chain m (sentinel :: w) new 0 hspec
      refine ⟨?_, hch⟩
      cases new with
      | nil =>
        have h0 : (0 : Nat) = (sentinel :: w).length := hspec
        simp at h0
      | cons tok rest =>
        obtain ⟨stop, h0s, hsl, hv, hlk, hoff, hrest⟩ := hspec
        have hv2 : tok.value = sliceChars (sentinel :: w) 1 stop := by
          simpa using hv
        have hstop2 : 2 ≤ stop := by
          by_contra hlt
          push_neg at hlt
          have hnil : sliceChars (sentinel :: w) 1 stop = [] := by
            unfold sliceChars
            have h10 : stop - 1 = 0 := by omega
            rw [h10, List.take_zero]
          rw [hv2, hnil, hemp] at hlk
          cases hlk
        show tok.value ++ (rest.map fun s => stripPiece m.contPrefix s.value).flatten = w
        rw [tokspec_concat_tail m (sentinel :: w) rest stop hstop2 hrest, hv2]
        rw [sliceChars_append (sentinel :: w) 1 stop (sentinel :: w).length (by omega) hsl]
        unfold sliceChars
        simp

theorem C2_witness :
    alookup mBanana.vocab [] = none ∧ hitsFallback mBanana wBanana = false ∧
      stripConcat mBanana.contPrefix toksBanana = wBanana ∧
      offsetsChained toksBanana 0 wBanana.length :=
  ⟨by decide, by decide,
    C2_reconstruction mBanana wBanana toksBanana (by decide) (by decide) (by decide)⟩

theorem empty_containsPath : ∀ x : List Char, Trie.empty.containsPath x = false := by
  intro x
  cases x <;> rfl

theorem childFind_childSet (cs : List (Char × Trie)) (c : Char) (t : Trie) (d : Char) :
    childFind (childSet cs c t) d = if c = d then some t else childFind cs d := by
  induction cs with
  | nil => rfl
  | cons e rest ih =>
    obtain ⟨ec, eu⟩ := e
    unfold childSet
    by_cases hec : ec = c
    · subst hec
      rw [if_pos rfl]
      simp only [childFind]
      by_cases hd : ec = d
      · rw [if_pos hd, if_pos hd]
      · rw [if_neg hd, if_neg hd]
        rw [if_neg hd]
    · rw [if_neg hec]
      simp only [childFind]
      rw [ih]
      by_cases hd : ec = d
      · have hcd : ¬ (c = d) := fun h => hec (hd.trans h.symm)
        rw [if_pos hd, if_neg hcd, if_pos hd]
      · rw [if_neg hd]
        by_cases hcd : c = d
        · rw [if_pos hcd, if_pos hcd]
        · rw [if_neg hcd, if_neg hcd, if_neg hd]

theorem push_containsPath : ∀ (l : List Char) (t : Trie) (x : List Char),
    (t.push l).containsPath x = true ↔ x = l ∨ t.containsPath x = true := by
  intro l
  induction l with
  | nil =>
    intro t x
    cases t with
    | node b cs =>
      unfold Trie.push
      cases x with
      | nil =>
        simp only [Trie.containsPath]
        constructor
        · intro h; exact .inl (by trivial)
        · intro h; trivial
      | cons d xs =>
        simp only [Trie.containsPath]
        constructor
        · intro h; exact .inr h
        · rintro (h | h)
          · cases h
          · exact h
  | cons c l2 ih =>
    intro t x
    cases t with
    | node b cs =>
      unfold Trie.push
      cases x with
      | nil =>
        simp only [Trie.containsPath]
        constructor
        · intro h; exact .inr h
        · rintro (h | h)
          · cases h
          · exact h
      | cons d xs =>
        simp only [Trie.containsPath]
        rw [childFind_childSet]
        by_cases hcd : c = d
        · subst hcd
          rw [if_pos rfl, ih]
          cases hf : childFind cs c with
          | some t2 =>
            constructor
            · rintro (h | h)
              · exact .inl (by rw [h])
              · exact .inr h
            · rintro (h | h)
              · injection h with h1 h2
                exact .inl h2
              · exact .inr h
          | none =>
            rw [empty_containsPath]
            constructor
            · rintro (h | h)
              · exact .inl (by rw [h])
              · cases h
            · rintro (h | h)
              · injection h with h1 h2
                exact .inl h2
              · cases h
        · rw [if_neg hcd]
          constructor
          · intro h; exact .inr h
          · rintro (h | h)
            · injection h with h1 h2
              exact absurd h1.symm hcd
            · exact h

theorem foldl_push_containsPath (p : List Char) (keys : List (List Char)) :
    ∀ (t : Trie) (x : List Char),
      ((keys.foldl (fun t k => t.push (transformKey p k)) t).containsPath x = true ↔
        (∃ k ∈ keys, transformKey p k = x) ∨ t.containsPath x = true) := by
  induction keys with
  | nil => intro t x; simp
  | cons k ks ih =>
    intro t x
    rw [List.foldl_cons, ih, push_containsPath]
    constructor
    · intro h
      rcases h with ⟨k2, hk2, ht2⟩ | h | h
      · exact .inl ⟨k2, List.mem_cons_of_mem k hk2, ht2⟩
      · exact .inl ⟨k, List.mem_cons_self k ks, h.symm⟩
      · exact .inr h
    · intro h
      rcases h with ⟨k2, hk2, ht2⟩ | h
      · rcases List.mem_cons.mp hk2 with rfl | hmem
        · exact .inr (.inl ht2.symm)
        · exact .inl ⟨k2, hmem, ht2⟩
      · exact .inr (.inr h)

theorem buildTrie_containsPath (p : List Char) (keys : List (List Char)) (x : List Char) :
    (buildTrie p keys).containsPath x = true ↔ ∃ k ∈ keys, transformKey p k = x := by
  unfold buildTrie
  rw [foldl_push_containsPath, empty_containsPath]
  simp

theorem isPrefixOf_recover (p k : List Char) (h : p.isPrefixOf k = true) :
    p ++ k.drop p.length = k := by
  obtain ⟨t, ht⟩ := List.isPrefixOf_iff_prefix.mp h
  subst ht
  rw [List.drop_left]

theorem transformKey_inj (p k1 k2 : List Char)
    (h1 : ¬ (p.isPrefixOf k1 = true ∧ (k1.drop p.length).head? = some sentinel))
    (h2 : ¬ (p.isPrefixOf k2 = true ∧ (k2.drop p.length).head? = some sentinel))
    (he : transformKey p k1 = transformKey p k2) : k1 = k2 := by
  unfold transformKey at he
  by_cases hp1 : p.isPrefixOf k1 = true
  · by_cases hp2 : p.isPrefixOf k2 = true
    · rw [if_pos hp1, if_pos hp2] at he
      rw [← isPrefixOf_recover p k1 hp1, ← isPrefixOf_recover p k2 hp2, he]
    · rw [if_pos hp1, if_neg hp2] at he
      exact absurd ⟨hp1, by rw [he]; rfl⟩ h1
  · by_cases hp2 : p.isPrefixOf k2 = true
    · rw [if_neg hp1, if_pos hp2] at he
      exact absurd ⟨hp2, by rw [← he]; rfl⟩ h2
    · rw [if_neg hp1, if_neg hp2] at he
      injection he

/-- C7 (amended): after build, a character sequence is a complete trie path
exactly when it is the prefix-stripped form of a marker-initial key or the
sentinel-prepended form of any other key; and provided no key strips to a
sentinel-initial remainder, each complete path corresponds to exactly one
vocabulary key under that transformation. -/
theorem C7_trie_paths (p : List Char) (keys : List (List Char)) :
    (∀ cs, (buildTrie p keys).containsPath cs = true ↔
      ∃ k ∈ keys, transformKey p k = cs) ∧
    ((∀ k ∈ keys, ¬ (p.isPrefixOf k = true ∧ (k.drop p.length).head? = some sentinel)) →
      ∀ cs, (buildTrie p keys).containsPath cs = true →
        ∃! k, k ∈ keys ∧ transformKey p k = cs) := by
  refine ⟨buildTrie_containsPath p keys, ?_⟩
  intro hcol cs hpath
  obtain ⟨k, hk, ht⟩ := (buildTrie_containsPath p keys cs).mp hpath
  refine ⟨k, ⟨hk, ht⟩, ?_⟩
  intro k2 hk2
  exact transformKey_inj p k2 k (hcol k2 hk2.1) (hcol k hk) (hk2.2.trans ht.symm)

theorem C7_witness :
    ∃! k, k ∈ [['#', '#', 'n', 'a'], ['b', 'a'], defaultUnk] ∧
      transformKey defaultCont k = [sentinel, 'b', 'a'] :=
  (C7_trie_paths defaultCont [['#', '#', 'n', 'a'], ['b', 'a'], defaultUnk]).2
    (by decide) [sentinel, 'b', 'a'] (by decide)

/-- C7 (counterexample): the two distinct keys ##▁a and a are inserted along
the same trie path ▁a, so that complete path corresponds to two vocabulary
entries, refuting the exactly-one invariant verbatim. -/
theorem C7_counterexample :
    (buildTrie defaultCont keysC7x).containsPath pathC7x = true ∧
      (['#', '#', sentinel, 'a'] ∈ keysC7x ∧
        transformKey defaultCont ['#', '#', sentinel, 'a'] = pathC7x) ∧
      (['a'] ∈ keysC7x ∧ transformKey defaultCont ['a'] = pathC7x) ∧
      ¬ (∃! k, k ∈ keysC7x ∧ transformKey defaultCont k = pathC7x) := by
  refine ⟨by decide, ⟨by decide, by decide⟩, ⟨by decide, by decide⟩, ?_⟩
  rintro ⟨k, _, huniq⟩
  have ha := huniq ['#', '#', sentinel, 'a'] ⟨by decide, by decide⟩
  have hb := huniq ['a'] ⟨by decide, by decide⟩
  have hab : (['#', '#', sentinel, 'a'] : List Char) = ['a'] := ha.trans hb.symm
  exact absurd hab (by decide)

theorem alookup_mem : ∀ (l : List (List Char × Nat)) (k : List Char) (v : Nat),
    alookup l k = some v → (k, v) ∈ l := by
  intro l
  induction l with
  | nil => intro k v h; cases h
  | cons e rest ih =>
    intro k v h
    unfold alookup at h
    by_cases hek : e.1 = k
    · rw [if_pos hek] at h
      injection h with h
      have he : e = (k, v) := by
        rw [← hek, ← h]
      rw [← he]
      exact List.mem_cons_self e rest
    · rw [if_neg hek] at h
      exact List.mem_cons_of_mem e (ih k v h)

theorem alookup_none_iff : ∀ (l : List (List Char × Nat)) (k : List Char),
    alookup l k = none ↔ ∀ e ∈ l, e.1 ≠ k := by
  intro l
  induction l with
  | nil => intro k; simp [alookup]
  | cons e rest ih =>
    intro k
    unfold alookup
    by_cases hek : e.1 = k
    · rw [if_pos hek]
      simp only [List.mem_cons]
      constructor
      · intro h; cases h
      · intro h
        exact absurd hek (h e (.inl rfl))
    · rw [if_neg hek, ih]
      simp only [List.mem_cons]
      constructor
      · intro h e2 he2
        rcases he2 with rfl | hm
        · exact hek
        · exact h e2 hm
      · intro h e2 hm
        exact h e2 (.inr hm)

theorem alookup_some_of_mem : ∀ (l : List (List Char × Nat)) (k : List Char) (v : Nat),
    (l.map Prod.fst).Nodup → (k, v) ∈ l → alookup l k = some v := by
  intro l
  induction l with
  | nil => intro k v _ h; cases h
  | cons e rest ih =>
    intro k v hnd hm
    obtain ⟨hhead, htail⟩ := List.nodup_cons.mp hnd
    unfold alookup
    rcases List.mem_cons.mp hm with rfl | hm2
    · rw [if_pos rfl]
    · by_cases hek : e.1 = k
      · exfalso
        apply hhead
        rw [hek]
        exact List.mem_map.mpr ⟨(k, v), hm2, rfl⟩
      · rw [if_neg hek]
        exact ih k v htail hm2

theorem alookup_perm (l1 l2 : List (List Char × Nat))
    (hnd : (l1.map Prod.fst).Nodup) (hp : List.Perm l1 l2) (k : List Char) :
    alookup l1 k = alookup l2 k := by
  have hnd2 : (l2.map Prod.fst).Nodup := ((hp.map Prod.fst).nodup_iff).mp hnd
  cases h1 : alookup l1 k with
  | some v =>
    exact (alookup_some_of_mem l2 k v hnd2 (hp.mem_iff.mp (alookup_mem l1 k v h1))).symm
  | none =>
    have h2 : ∀ e ∈ l2, e.1 ≠ k := by
      intro e he
      exact (alookup_none_iff l1 k).mp h1 e (hp.mem_iff.mpr he)
    exact ((alookup_none_iff l2 k).mpr h2).symm

theorem splitLinesAux_middle : ∀ (l : List Char) (rest acc : List Char), nl ∉ l →
    splitLinesAux (l ++ nl :: rest) acc =
      dropTrailingCR (acc.reverse ++ l) :: splitLinesAux rest [] := by
  intro l
  induction l with
  | nil =>
    intro rest acc _
    show splitLinesAux (nl :: rest) acc = _
    simp [splitLinesAux]
  | cons c l2 ih =>
    intro rest acc hnl
    have hc : ¬ (c = nl) := fun h => hnl (h ▸ List.mem_cons_self c l2)
    show splitLinesAux (c :: (l2 ++ nl :: rest)) acc = _
    simp only [splitLinesAux]
    rw [if_neg hc, ih rest (c :: acc) (fun h => hnl (List.mem_cons_of_mem c h))]
    simp

theorem splitLines_linesJoin : ∀ L : List (List Char),
    (∀ l ∈ L, nl ∉ l ∧ dropTrailingCR l = l) → splitLines (linesJoin L) = L := by
  intro L
  induction L with
  | nil => intro _; rfl
  | cons l rest ih =>
    intro h
    obtain ⟨hnl, hcr⟩ := h l (List.mem_cons_self l rest)
    unfold linesJoin splitLines
    rw [splitLinesAux_middle l (linesJoin rest) [] hnl]
    rw [List.reverse_nil, List.nil_append, hcr]
    exact congrArg (l :: ·) (ih (fun e he => h e (List.mem_cons_of_mem l he)))

theorem trimEnd_last_not_ws (l : List Char) (h : trimEnd l = l) :
    ∀ c, l.getLast? = some c → rustIsWhitespace c = false := by
  intro c hc
  by_contra hws
  have hws2 : rustIsWhitespace c = true := by
    cases hb : rustIsWhitespace c
    · exact absurd hb hws
    · rfl
  cases hr : l.reverse with
  | nil =>
    rw [← List.head?_reverse, hr] at hc
    cases hc
  | cons a t =>
    have hac : a = c := by
      rw [← List.head?_reverse, hr] at hc
      injection hc with hc
    subst hac
    have hlen : (trimEnd l).length < l.length := by
      unfold trimEnd
      rw [hr, List.dropWhile_cons, if_pos hws2, List.length_reverse]
      have hle := (List.dropWhile_sublist (l := t) rustIsWhitespace).length_le
      have hlr : l.length = t.length + 1 := by
        rw [← List.length_reverse l, hr, List.length_cons]
      omega
    rw [h] at hlen
    exact lt_irrefl _ hlen

theorem trimEnd_stable_no_cr (l : List Char) (h : trimEnd l = l) :
    dropTrailingCR l = l := by
  unfold dropTrailingCR
  cases hl : l.getLast? with
  | none => rfl
  | some c =>
    have hws := trimEnd_last_not_ws l h c hl
    have hcc : ¬ (c = cr) := by
      intro hcr
      subst hcr
      rw [show rustIsWhitespace cr = true from by decide] at hws
      cases hws
    show (if c = cr then l.dropLast else l) = l
    rw [if_neg hcc]

theorem alookup_append (l1 l2 : List (List Char × Nat)) (k : List Char) :
    alookup (l1 ++ l2) k = match alookup l1 k with
      | some v => some v
      | none => alookup l2 k := by
  induction l1 with
  | nil => rfl
  | cons e rest ih =>
    show alookup (e :: (rest ++ l2)) k = _
    simp only [alookup]
    by_cases hek : e.1 = k
    · rw [if_pos hek]
      rw [if_pos hek]
    · rw [if_neg hek]
      rw [if_neg hek]
      exact ih

theorem read_fileAux_clean : ∀ (lines : List (List Char)) (i : Nat)
    (m : List (List Char × Nat)),
    (∀ l ∈ lines, trimEnd l = l) → lines.Nodup →
    (∀ l ∈ lines, alookup m l = none) →
    read_fileAux lines i m = m ++ indexed lines i := by
  intro lines
  induction lines with
  | nil => intro i m _ _ _; simp [read_fileAux, indexed]
  | cons l ls ih =>
    intro i m htrim hnd hfresh
    obtain ⟨hhead, htail⟩ := List.nodup_cons.mp hnd
    unfold read_fileAux
    rw [htrim l (List.mem_cons_self l ls)]
    have hmfree := hfresh l (List.mem_cons_self l ls)
    unfold insertVocab
    rw [hmfree]
    rw [ih (i + 1) (m ++ [(l, i)])
      (fun e he => htrim e (List.mem_cons_of_mem l he)) htail ?fresh2]
    · rw [List.append_assoc]
      rfl
    case fresh2 =>
      intro e he
      rw [alookup_append]
      rw [hfresh e (List.mem_cons_of_mem l he)]
      show alookup [(l, i)] e = none
      simp only [alookup]
      have hle : ¬ (((l, i) : List Char × Nat).1 = e) := by
        intro h
        apply hhead
        show l ∈ ls
        rw [show l = e from h]
        exact he
      rw [if_neg hle]

theorem indexed_of_snd_range : ∀ (s : List (List Char × Nat)) (i : Nat),
    s.map Prod.snd = (List.range s.length).map (· + i) →
    s = indexed (s.map Prod.fst) i := by
  intro s
  induction s with
  | nil => intro i _; rfl
  | cons e rest ih =>
    intro i h
    simp only [List.map_cons, List.length_cons, List.range_succ_eq_map,
      List.map_map] at h
    injection h with h1 h2
    have h2b : rest.map Prod.snd = (List.range rest.length).map (· + (i + 1)) := by
      rw [h2]
      apply List.map_congr_left
      intro a _
      simp only [Function.comp_apply]
      omega
    simp only [List.map_cons, indexed]
    rw [← ih (i + 1) h2b]
    have he : e = (e.1, i) := by
      have hi : e.2 = i := by omega
      rw [← hi]
    exact congrArg (fun x => x :: rest) he

theorem sortByIdx_snd_range (V : List (List Char × Nat))
    (hperm : List.Perm (V.map Prod.snd) (List.range V.length)) :
    (sortByIdx V).map Prod.snd = List.range V.length := by
  haveI htot : IsTotal (List Char × Nat) (fun a b => a.2 ≤ b.2) :=
    ⟨fun a b => Nat.le_total a.2 b.2⟩
  haveI htr : IsTrans (List Char × Nat) (fun a b => a.2 ≤ b.2) :=
    ⟨fun _ _ _ => Nat.le_trans⟩
  have hsorted := List.sorted_insertionSort (fun (a b : List Char × Nat) => a.2 ≤ b.2) V
  have hsp := List.perm_insertionSort (fun (a b : List Char × Nat) => a.2 ≤ b.2) V
  have hmsorted : List.Sorted (· ≤ ·) ((sortByIdx V).map Prod.snd) :=
    List.Pairwise.map Prod.snd (fun _ _ h => h) hsorted
  have hmperm : List.Perm ((sortByIdx V).map Prod.snd) (List.range V.length) :=
    (hsp.map Prod.snd).trans hperm
  exact List.eq_of_perm_of_sorted hmperm hmsorted (List.sorted_le_range _)

/-- C8 (amended): save writes the tokens sorted ascending by id, one per
line, newline-terminated; read_file trims trailing whitespace from every
line and assigns zero-based line indices as ids; consequently
load(save(V)) reproduces V exactly whenever V has distinct tokens whose
ids form a dense 0-based sequence, no token contains a newline, and no
token carries trailing whitespace. -/
theorem C8_roundtrip (V : List (List Char × Nat))
    (hperm : List.Perm (V.map Prod.snd) (List.range V.length))
    (hkeys : (V.map Prod.fst).Nodup)
    (hclean : ∀ e ∈ V, nl ∉ e.1 ∧ trimEnd e.1 = e.1) :
    List.Sorted (fun a b => a.2 ≤ b.2) (sortByIdx V) ∧
      ∀ k, alookup (read_file (saveContent V)) k = alookup V k := by
  haveI htot : IsTotal (List Char × Nat) (fun a b => a.2 ≤ b.2) :=
    ⟨fun a b => Nat.le_total a.2 b.2⟩
  haveI htr : IsTrans (List Char × Nat) (fun a b => a.2 ≤ b.2) :=
    ⟨fun _ _ _ => Nat.le_trans⟩
  refine ⟨List.sorted_insertionSort _ V, ?_⟩
  intro k
  have hsp : List.Perm (sortByIdx V) V := List.perm_insertionSort _ V
  have hsnd := sortByIdx_snd_range V hperm
  have hclean2 : ∀ e ∈ sortByIdx V, nl ∉ e.1 ∧ trimEnd e.1 = e.1 :=
    fun e he => hclean e (hsp.mem_iff.mp he)
  have hkeys2 : ((sortByIdx V).map Prod.fst).Nodup :=
    ((hsp.map Prod.fst).nodup_iff).mpr hkeys
  have hlines : splitLines (saveContent V) = (sortByIdx V).map Prod.fst := by
    unfold saveContent
    apply splitLines_linesJoin
    intro l hl
    obtain ⟨e, he, hel⟩ := List.mem_map.mp hl
    obtain ⟨hnl, htrim⟩ := hclean2 e he
    subst hel
    exact ⟨hnl, trimEnd_stable_no_cr e.1 htrim⟩
  have hread : read_file (saveContent V) = indexed ((sortByIdx V).map Prod.fst) 0 := by
    unfold read_file
    rw [hlines]
    rw [read_fileAux_clean ((sortByIdx V).map Prod.fst) 0 [] ?trims hkeys2 ?fresh]
    · rw [List.nil_append]
    case trims =>
      intro l hl
      obtain ⟨e, he, hel⟩ := List.mem_map.mp hl
      subst hel
      exact (hclean2 e he).2
    case fresh => intro l _; rfl
  have hsidx : sortByIdx V = indexed ((sortByIdx V).map Prod.fst) 0 := by
    apply indexed_of_snd_range
    rw [hsnd, hsp.length_eq]
    simp
  rw [hread, ← hsidx]
  exact alookup_perm (sortByIdx V) V hkeys2 hsp k

theorem C8_witness :
    List.Perm (VC8w.map Prod.snd) (List.range VC8w.length) ∧
      (VC8w.map Prod.fst).Nodup ∧
      alookup (read_file (saveContent VC8w)) ['a'] = alookup VC8w ['a'] :=
  ⟨by decide, by decide,
    (C8_roundtrip VC8w (by decide) (by decide) (by decide)).2 ['a']⟩

/-- C8 (counterexample): the vocabulary {"a␠": 0} (single token with a
trailing space) has dense 0-based ids, yet load(save(V)) trims the trailing
space and yields {"a": 0}, so the original key no longer resolves. -/
theorem C8_counterexample :
    List.Perm (VC8x.map Prod.snd) (List.range VC8x.length) ∧
      (VC8x.map Prod.fst).Nodup ∧
      alookup (read_file (saveContent VC8x)) ['a', Char.ofNat 32] ≠
        alookup VC8x ['a', Char.ofNat 32] :=
  ⟨by decide, by decide, by decide⟩

end Tokenizers
